import Mathlib

/-!
# Monte Carlo estimation of π: model of `monte_carlo_pi.c`

A shallow embedding of the thread function `calculate_hits` and of `main`
(`src/monte_carlo_pi.c`), followed by the properties of the sampling worker,
the seed derivation and the join/reduce loop.

Conventions of the embedding:

* C integers are `Int`/`Nat` with explicit two's-complement reduction
  (`wrapSigned`) at every arithmetic step whose width matters;
* the C library and the platform (`erand48`, `double` arithmetic, `time`,
  `pthread_create`, `pthread_join`) are parameters of the model;
* loops are `while` loops run with a step budget (`fuel`); a loop that is not
  finished when the budget is exhausted yields `none`;
* what `main` prints or asks of the thread library is recorded, in order, in a
  list of `Event`s.
-/

namespace MonteCarloPi

/-! ## Machine integers -/

/-- Reduction of an integer to the signed two's-complement range of width `w`. -/
def wrapSigned (w : Nat) (x : Int) : Int :=
  (x + 2 ^ (w - 1)) % 2 ^ w - 2 ^ (w - 1)

/-- Arithmetic result stored in an `int` (32 bits). -/
def wrapInt (x : Int) : Int := wrapSigned 32 x

/-- Arithmetic result stored in a `long long` (64 bits). -/
def wrapLongLong (x : Int) : Int := wrapSigned 64 x

/-- Conversion of an integer value to `unsigned int` (32 bits). -/
def toUInt (x : Int) : Nat := (x % 2 ^ 32).toNat

/-- Conversion of an unsigned value to `unsigned short` (16 bits). -/
def toUShort (x : Nat) : Nat := x % 2 ^ 16

/-- Largest value of an `int`. -/
def INT_MAX : Int := 2147483647

/-- Smallest value of an `int`. -/
def INT_MIN : Int := -2147483648

/-- The value is representable in an `int`. -/
def IsInt (x : Int) : Prop := INT_MIN ≤ x ∧ x ≤ INT_MAX

instance (x : Int) : Decidable (IsInt x) :=
  inferInstanceAs (Decidable (INT_MIN ≤ x ∧ x ≤ INT_MAX))

/-! ## Constants and data of the program -/

/-- Macro `N_THREADS` (line 22). -/
def N_THREADS : Int := 32

/-- Macro `TOTAL_POINTS`, `1<<21` (line 23). -/
def TOTAL_POINTS : Int := ((1 <<< 21 : Nat) : Int)

/-- Exit status `EXIT_FAILURE` of `<stdlib.h>`. -/
def EXIT_FAILURE : Int := 1

/-- The generator state `unsigned short seed[3]`. -/
structure Seed where
  s0 : Nat
  s1 : Nat
  s2 : Nat
  deriving DecidableEq, Repr

/-- The argument record `Samples_Seed` handed to a thread (lines 26-29). -/
structure Samples_Seed where
  samples : Int
  seed : Seed
  deriving DecidableEq, Repr

/-- What the thread function needs from the C library and the machine:
the width of `long`, the generator `erand48` (which returns a `double` and
advances the seed in place) and the `double` operations of the hit test. -/
structure Machine (D : Type) where
  longBits : Nat
  erand48 : Seed → D × Seed
  mul : D → D → D
  add : D → D → D
  le : D → D → Bool
  one : D

/-- Arithmetic result stored in a `long` of the machine. -/
def wrapLong {D : Type} (M : Machine D) (x : Int) : Int := wrapSigned M.longBits x

/-- State of the sampling loop when it is left: the counter `i`, the
accumulator `hits` and the generator state. -/
structure LoopState where
  i : Int
  hits : Int
  seed : Seed
  deriving DecidableEq, Repr

/-! ## The thread function -/

/-- The loop of `calculate_hits` (lines 46-54):
`for (long i=0; i < samples; i++) { x = erand48(seed); y = erand48(seed);
if (x*x+y*y <= 1.0) hits++; }`, run for at most `fuel` iterations. -/
def hitsLoop {D : Type} (M : Machine D) (samples : Int) :
    Nat → Int → Int → Seed → Option LoopState
  | 0, i, hits, seed => if i < samples then none else some ⟨i, hits, seed⟩
  | fuel + 1, i, hits, seed =>
    if i < samples then
      let x := (M.erand48 seed).1
      let seed1 := (M.erand48 seed).2
      let y := (M.erand48 seed1).1
      let seed2 := (M.erand48 seed1).2
      let hits1 := if M.le (M.add (M.mul x x) (M.mul y y)) M.one = true
        then wrapLong M (hits + 1) else hits
      hitsLoop M samples fuel (wrapLong M (i + 1)) hits1 seed2
    else some ⟨i, hits, seed⟩

/-- The thread function `calculate_hits` (lines 32-62): the value it stores in
`*result` and hands to `pthread_exit`; `none` when the loop is not finished
within `fuel` iterations. The allocation of `result` (line 57) is not
modelled. -/
def calculate_hits {D : Type} (M : Machine D) (fuel : Nat) (arg : Samples_Seed) :
    Option Int :=
  (hitsLoop M arg.samples fuel 0 0 arg.seed).map LoopState.hits

/-! ## Reference counts (unbounded arithmetic) -/

/-- Generator state after `n` sample points (two draws each). -/
def seedAfter {D : Type} (M : Machine D) : Nat → Seed → Seed
  | 0, seed => seed
  | n + 1, seed => seedAfter M n (M.erand48 (M.erand48 seed).2).2

/-- Number of the first `n` sample points drawn from `seed` that pass the test
`x*x+y*y <= 1.0`, as a natural number. -/
def hitsAfter {D : Type} (M : Machine D) : Nat → Seed → Nat
  | 0, _ => 0
  | n + 1, seed =>
    let x := (M.erand48 seed).1
    let seed1 := (M.erand48 seed).2
    let y := (M.erand48 seed1).1
    let seed2 := (M.erand48 seed1).2
    (if M.le (M.add (M.mul x x) (M.mul y y)) M.one = true then 1 else 0)
      + hitsAfter M n seed2

/-! ## The program `main` -/

/-- What `main` needs from the platform during one run: the value of
`time(NULL)`, the status returned by the `pthread_create` call for thread `i`,
the status returned by the `pthread_join` call for thread `i`, and whether the
pointer that this join delivers in `ret_val` is `NULL`. -/
structure Platform where
  time : Int
  pthread_create : Int → Int
  pthread_join : Int → Int
  retNull : Int → Bool

/-- Calls to the thread library and lines written to standard output. -/
inductive Event where
  /-- Line 80: `printf("Invalid number of threads...\n")`. -/
  | invalidThreads
  /-- Line 109: `pthread_create(&threads[i], NULL, calculate_hits, thread_args)`. -/
  | create (i : Int) (arg : Samples_Seed)
  /-- Line 112: `printf("Failed in creation of thread %d (%d)\n", i, status)`. -/
  | createFailed (i : Int) (status : Int)
  /-- Line 125: `pthread_join(threads[i], &ret_val)`. -/
  | join (i : Int)
  /-- Line 128: `printf("Error in pthread_join (%d)\n", status)`. -/
  | joinError (status : Int)
  /-- Line 140: `printf("Thread %d returned NULL\n", i)`. -/
  | returnedNull (i : Int)
  /-- Line 147: `printf("hits: %lld\n", total_hits)`. -/
  | hits (total_hits : Int)
  /-- Lines 150-153: `pi = 4.0 * ((double)total_hits / (samples*num_threads))`
  and `printf("Pi: %.16f\n", pi)`, recorded with the two operands of the
  division. -/
  | pi (total_hits : Int) (divisor : Int)
  deriving DecidableEq, Repr

/-- Result of a run of `main`: its return value and what it did, in order. -/
structure Outcome where
  status : Int
  out : List Event
  deriving DecidableEq, Repr

/-- The record built for thread `i` (lines 100-106): the full sample count and
the seed derived from `base_seed + i`, the sum being an `unsigned int`. -/
def thread_args (samples : Int) (base_seed : Nat) (i : Int) : Samples_Seed :=
  let v := toUInt ((base_seed : Int) + i)
  { samples := samples
    seed :=
      { s0 := toUShort (v &&& 0xFFFF)
        s1 := toUShort ((v >>> 8) &&& 0xFFFF)
        s2 := toUShort ((v >>> 16) &&& 0xFFFF) } }

/-- The launch loop (lines 97-115). The first component of the result is the
value `main` returns from inside the loop, if it does. -/
def createLoop (P : Platform) (samples num_threads : Int) (base_seed : Nat) :
    Nat → Int → List Event → Option (Option Int × List Event)
  | 0, i, out => if i < num_threads then none else some (none, out)
  | fuel + 1, i, out =>
    if i < num_threads then
      let arg := thread_args samples base_seed i
      let status := P.pthread_create i
      if status ≠ 0 then
        some (some EXIT_FAILURE, out ++ [Event.create i arg, Event.createFailed i status])
      else
        createLoop P samples num_threads base_seed fuel (wrapInt (i + 1))
          (out ++ [Event.create i arg])
    else some (none, out)

/-- Lines 133-140: the effect on `total_hits` of one delivered pointer,
`none` standing for `NULL`. -/
def accumulate (total_hits : Int) : Option Int → Int
  | some partial_hits => wrapLongLong (total_hits + partial_hits)
  | none => total_hits

/-- The join/reduce loop (lines 120-142). Thread `i` was created with
`thread_args samples base_seed i`; a successful join delivers what that thread
passed to `pthread_exit`. The result is `total_hits` and the events. -/
def joinLoop {D : Type} (M : Machine D) (P : Platform) (wfuel : Nat)
    (samples num_threads : Int) (base_seed : Nat) :
    Nat → Int → Int → List Event → Option (Int × List Event)
  | 0, i, total_hits, out => if i < num_threads then none else some (total_hits, out)
  | fuel + 1, i, total_hits, out =>
    if i < num_threads then
      let status := P.pthread_join i
      if status ≠ 0 then
        some (total_hits, out ++ [Event.join i, Event.joinError status])
      else
        match calculate_hits M wfuel (thread_args samples base_seed i) with
        | none => none
        | some h =>
          if P.retNull i = true then
            joinLoop M P wfuel samples num_threads base_seed fuel (wrapInt (i + 1))
              (accumulate total_hits none) (out ++ [Event.join i, Event.returnedNull i])
          else
            joinLoop M P wfuel samples num_threads base_seed fuel (wrapInt (i + 1))
              (accumulate total_hits (some h)) (out ++ [Event.join i])
    else some (total_hits, out)

/-- The divisor of the estimate, the `int` expression `samples*num_threads`
(line 150). A product outside the range of `int` is undefined in C; it is
given here the two's-complement value that the multiplication instruction
leaves. -/
def piDivisor (samples num_threads : Int) : Int := wrapInt (samples * num_threads)

/-- Lines 87-155 of `main`, once `samples` and `num_threads` are set. The
allocation and release of the `threads` array and the unused array `seeds` are
not modelled; `total_hits` starts at `0`; the estimate is recorded by the
operands of its division. -/
def mainBody {D : Type} (M : Machine D) (P : Platform) (fuel : Nat)
    (samples num_threads : Int) : Option Outcome :=
  let base_seed := toUInt P.time
  match createLoop P samples num_threads base_seed fuel 0 [] with
  | none => none
  | some (some status, out) => some ⟨status, out⟩
  | some (none, out) =>
    match joinLoop M P fuel samples num_threads base_seed fuel 0 0 out with
    | none => none
    | some (total_hits, out1) =>
      some ⟨0, out1 ++ [Event.hits total_hits,
        Event.pi total_hits (piDivisor samples num_threads)]⟩

/-- The function `main` (lines 64-156). `argv` holds, for each argument string
`argv[k]`, the value `atoi(argv[k])`; `argc` is its length. Every loop, in
`main` and in the threads, has the budget `fuel`. -/
def main {D : Type} (M : Machine D) (P : Platform) (fuel : Nat) (argv : List Int) :
    Option Outcome :=
  let argc : Int := argv.length
  let samples := if argc > 1 then argv.getD 1 0 else TOTAL_POINTS
  if argc > 2 then
    let num_threads := argv.getD 2 0
    if num_threads ≤ 0 then
      some ⟨EXIT_FAILURE, [Event.invalidThreads]⟩
    else mainBody M P fuel samples num_threads
  else mainBody M P fuel samples N_THREADS

/-! ## Closed forms of the traces and of the reduction -/

/-- Events of the first `k` successful thread creations. -/
def createTrace (samples : Int) (base_seed : Nat) : Nat → List Event
  | 0 => []
  | k + 1 => createTrace samples base_seed k
      ++ [Event.create (k : Int) (thread_args samples base_seed k)]

/-- Events of the successful join of thread `i`. -/
def joinEvents (P : Platform) (i : Int) : List Event :=
  if P.retNull i = true then [Event.join i, Event.returnedNull i] else [Event.join i]

/-- Events of the first `k` successful joins. -/
def joinTrace (P : Platform) : Nat → List Event
  | 0 => []
  | k + 1 => joinTrace P k ++ joinEvents P (k : Int)

/-- The partial result that the join of thread `i` delivers: `none` for a
`NULL` pointer, otherwise the number of hits among the thread's
`samples` points. -/
def partialResult {D : Type} (M : Machine D) (P : Platform) (samples : Int)
    (base_seed : Nat) (i : Nat) : Option Int :=
  if P.retNull (i : Int) = true then none
  else some (hitsAfter M samples.toNat (thread_args samples base_seed i).seed : Nat)

/-- The partial results of threads `0 .. k-1`, in join order. -/
def partialResults {D : Type} (M : Machine D) (P : Platform) (samples : Int)
    (base_seed : Nat) (k : Nat) : List (Option Int) :=
  (List.range k).map (partialResult M P samples base_seed)

/-- The reducer's summation over a list of delivered partial results: the
accumulation step of the join loop applied from `total_hits = 0`. -/
def reduce (results : List (Option Int)) : Int :=
  results.foldl accumulate 0

/-- Contribution of a partial result to the exact sum: a missing result
counts as zero. -/
def contribution : Option Int → Int
  | some h => h
  | none => 0

/-- The exact (unbounded) sum of the contributions of a list of partial results. -/
def exactSum (results : List (Option Int)) : Int :=
  (results.map contribution).sum

/-- Events with which the join loop ends after `k` successful joins: the
failed join of thread `k` and its message when `k < num_threads`, nothing when
every thread has been joined. -/
def joinStop (P : Platform) (num_threads : Int) (k : Nat) : List Event :=
  if (k : Int) < num_threads then
    [Event.join (k : Int), Event.joinError (P.pthread_join (k : Int))]
  else []

/-- Indices of the threads for which `pthread_create` was called, in order. -/
def createdThreads (out : List Event) : List Int :=
  out.filterMap fun e => match e with
    | Event.create i _ => some i
    | _ => none

/-- Indices of the threads for which `pthread_join` was called, in order. -/
def joinedThreads (out : List Event) : List Int :=
  out.filterMap fun e => match e with
    | Event.join i => some i
    | _ => none

/-- The run performs the division of the estimate with a zero divisor. -/
def DividesByZero (r : Outcome) : Prop :=
  ∃ total_hits : Int, Event.pi total_hits 0 ∈ r.out

/-- The event belongs to the launch or join phase: it is neither the
rejection message nor one of the two result lines. -/
def Event.isThreadEvent : Event → Bool
  | Event.create _ _ => true
  | Event.createFailed _ _ => true
  | Event.join _ => true
  | Event.joinError _ => true
  | Event.returnedNull _ => true
  | _ => false

/-- The exact sum of the sample counts handed to threads `0 .. k-1`. -/
def assignedSamples (samples : Int) (base_seed : Nat) (k : Nat) : Int :=
  ((List.range k).map (fun j : Nat => (thread_args samples base_seed (j : Int)).samples)).sum

/-! ## A concrete machine and concrete platforms, for evaluation -/

/-- A concrete machine on which the model can be run: `long` of 64 bits, the
48-bit linear congruential generator that POSIX prescribes for `erand48`
(a draw is represented by the new state `X`, standing for `X / 2^48`), and the
hit test `x*x + y*y <= 1` evaluated on these numerators. -/
def lcgMachine : Machine Nat where
  longBits := 64
  erand48 := fun seed =>
    let X := seed.s0 + seed.s1 * 2 ^ 16 + seed.s2 * 2 ^ 32
    let X1 := (0x5DEECE66D * X + 0xB) % 2 ^ 48
    (X1, ⟨X1 % 2 ^ 16, (X1 / 2 ^ 16) % 2 ^ 16, X1 / 2 ^ 32⟩)
  mul := fun a b => a * b
  add := fun a b => a + b
  le := fun a b => decide (a ≤ b)
  one := 2 ^ 96

/-- A platform on which every thread call succeeds and every thread delivers
its result. -/
def calmPlatform : Platform where
  time := 1700000000
  pthread_create := fun _ => 0
  pthread_join := fun _ => 0
  retNull := fun _ => false

/-- A platform on which the join of thread `1` fails with status `3` and the
join of thread `0` delivers `NULL`. -/
def roughPlatform : Platform where
  time := 1700000000
  pthread_create := fun _ => 0
  pthread_join := fun i => if i = 1 then 3 else 0
  retNull := fun i => decide (i = 0)

/-! ## Machine arithmetic without overflow -/

theorem two_pow_31_le (w : Nat) (hw : 32 ≤ w) : (2147483648 : Int) ≤ 2 ^ (w - 1) := by
  have h : (2 : Int) ^ 31 ≤ 2 ^ (w - 1) :=
    pow_le_pow_right₀ (by norm_num) (by omega)
  norm_num at h
  exact h

theorem wrapSigned_eq_self (w : Nat) (x : Int) (hw : 1 ≤ w)
    (hlo : -(2 : Int) ^ (w - 1) ≤ x) (hhi : x < 2 ^ (w - 1)) : wrapSigned w x = x := by
  unfold wrapSigned
  have hpow : (2 : Int) ^ w = 2 * 2 ^ (w - 1) := by
    obtain ⟨v, rfl⟩ : ∃ v, w = v + 1 := ⟨w - 1, by omega⟩
    simp [pow_succ, mul_comm]
  rw [Int.emod_eq_of_lt (by omega) (by omega)]
  omega

theorem wrapInt_eq_self (x : Int) (h : IsInt x) : wrapInt x = x := by
  unfold IsInt INT_MIN INT_MAX at h
  apply wrapSigned_eq_self 32 x (by norm_num) <;> norm_num <;> omega

theorem wrapLong_eq_self {D : Type} (M : Machine D) (hw : 32 ≤ M.longBits) (x : Int)
    (h : IsInt x) : wrapLong M x = x := by
  unfold IsInt INT_MIN INT_MAX at h
  have hp := two_pow_31_le M.longBits hw
  apply wrapSigned_eq_self M.longBits x (by omega) <;> omega

theorem wrapLongLong_eq_self (x : Int) (hlo : -9223372036854775808 ≤ x)
    (hhi : x < 9223372036854775808) : wrapLongLong x = x := by
  apply wrapSigned_eq_self 64 x (by norm_num) <;> norm_num <;> omega

/-! ## The sampling loop -/

theorem hitsAfter_le {D : Type} (M : Machine D) :
    ∀ (n : Nat) (seed : Seed), hitsAfter M n seed ≤ n := by
  intro n
  induction n with
  | zero => intro seed; simp [hitsAfter]
  | succ n ih =>
    intro seed
    simp only [hitsAfter]
    have := ih (M.erand48 (M.erand48 seed).2).2
    split <;> omega

/-- With `m` iterations left and a budget of at least `m`, the loop ends with
`i = samples`, having added to `hits` the number of hits among the next `m`
points, and no `long` operation wraps. -/
theorem hitsLoop_run {D : Type} (M : Machine D) (samples : Int) (hw : 32 ≤ M.longBits)
    (hs : samples ≤ INT_MAX) :
    ∀ (m fuel : Nat) (hits : Int) (seed : Seed), m ≤ fuel → (m : Int) ≤ samples →
      0 ≤ hits → hits + m ≤ INT_MAX →
      hitsLoop M samples fuel (samples - m) hits seed
        = some ⟨samples, hits + hitsAfter M m seed, seedAfter M m seed⟩ := by
  intro m
  induction m with
  | zero =>
    intro fuel hits seed _ _ _ _
    cases fuel <;> simp [hitsLoop, hitsAfter, seedAfter]
  | succ m ih =>
    intro fuel hits seed hf hm h0 hb
    obtain ⟨f, rfl⟩ : ∃ f, fuel = f + 1 := ⟨fuel - 1, by omega⟩
    have hlt : samples - ((m + 1 : Nat) : Int) < samples := by omega
    have hi : wrapLong M (samples - ((m + 1 : Nat) : Int) + 1) = samples - (m : Int) := by
      rw [wrapLong_eq_self M hw _ (by unfold IsInt INT_MIN INT_MAX at *; omega)]
      omega
    have hh : wrapLong M (hits + 1) = hits + 1 :=
      wrapLong_eq_self M hw _ (by unfold IsInt INT_MIN INT_MAX at *; omega)
    simp only [hitsLoop, hlt, if_true, hi, hh, hitsAfter, seedAfter]
    split
    · rw [ih f (hits + 1) _ (by omega) (by omega) (by omega) (by omega)]
      simp; omega
    · rw [ih f hits _ (by omega) (by omega) (by omega) (by omega)]
      simp

/-- The thread function returns, within a budget of `samples` iterations, the
number of hits among its `samples` points (none when `samples ≤ 0`). -/
theorem calculate_hits_eq {D : Type} (M : Machine D) (hw : 32 ≤ M.longBits)
    (fuel : Nat) (arg : Samples_Seed) (hs : IsInt arg.samples)
    (hf : arg.samples.toNat ≤ fuel) :
    calculate_hits M fuel arg = some (hitsAfter M arg.samples.toNat arg.seed : Nat) := by
  unfold calculate_hits
  by_cases hpos : 0 ≤ arg.samples
  · have h := hitsLoop_run M arg.samples hw hs.2 arg.samples.toNat fuel 0 arg.seed hf
      (by omega) (by omega) (by unfold INT_MAX; have := hs.2; unfold INT_MAX at this; omega)
    have hz : arg.samples - (arg.samples.toNat : Int) = 0 := by omega
    rw [hz] at h
    rw [h]
    simp
  · have hz : arg.samples.toNat = 0 := by omega
    have hn : ¬ (0 < arg.samples) := by omega
    rw [hz]
    cases fuel <;> simp [hitsLoop, hn, hitsAfter]

/-! ## Seed derivation -/

theorem seed_s0 (samples : Int) (B : Nat) (i : Int) :
    (thread_args samples B i).seed.s0 = toUInt ((B : Int) + i) % 65536 := by
  simp only [thread_args, toUShort]
  have := Nat.and_pow_two_sub_one_eq_mod (toUInt ((B : Int) + i)) 16
  norm_num at this ⊢
  rw [this]; simp

theorem seed_s1 (samples : Int) (B : Nat) (i : Int) :
    (thread_args samples B i).seed.s1 = toUInt ((B : Int) + i) / 256 % 65536 := by
  simp only [thread_args, toUShort]
  have := Nat.and_pow_two_sub_one_eq_mod (toUInt ((B : Int) + i) >>> 8) 16
  norm_num at this ⊢
  rw [this, Nat.shiftRight_eq_div_pow]; simp

theorem seed_s2 (samples : Int) (B : Nat) (i : Int) :
    (thread_args samples B i).seed.s2 = toUInt ((B : Int) + i) / 65536 % 65536 := by
  simp only [thread_args, toUShort]
  have := Nat.and_pow_two_sub_one_eq_mod (toUInt ((B : Int) + i) >>> 16) 16
  norm_num at this ⊢
  rw [this, Nat.shiftRight_eq_div_pow]; simp

theorem toUInt_lt (x : Int) : toUInt x < 4294967296 := by
  unfold toUInt
  have := Int.emod_lt_of_pos x (show (0:Int) < 2 ^ 32 by norm_num)
  have := Int.emod_nonneg x (show (2:Int) ^ 32 ≠ 0 by norm_num)
  omega

/-- The seed determines `base_seed + i` modulo `2^32`: two indices less than
`2^32` apart that get the same seed are equal. -/
theorem thread_args_seed_injective (samples : Int) (B : Nat) (i j : Int)
    (hd : i - j < 4294967296) (hd2 : j - i < 4294967296)
    (h : (thread_args samples B i).seed = (thread_args samples B j).seed) : i = j := by
  have h0 := congrArg Seed.s0 h
  have h2 := congrArg Seed.s2 h
  rw [seed_s0, seed_s0] at h0
  rw [seed_s2, seed_s2] at h2
  have hi := toUInt_lt ((B : Int) + i)
  have hj := toUInt_lt ((B : Int) + j)
  have hv : toUInt ((B : Int) + i) = toUInt ((B : Int) + j) := by omega
  unfold toUInt at hv
  have e1 := Int.emod_nonneg ((B : Int) + i) (show (2:Int) ^ 32 ≠ 0 by norm_num)
  have e2 := Int.emod_nonneg ((B : Int) + j) (show (2:Int) ^ 32 ≠ 0 by norm_num)
  have hv2 : ((B : Int) + i) % 2 ^ 32 = ((B : Int) + j) % 2 ^ 32 := by omega
  norm_num at hv2
  omega

/-! ## The launch loop -/

theorem createLoop_done (P : Platform) (samples num_threads : Int) (B : Nat)
    (fuel : Nat) (i : Int) (out : List Event) (h : ¬ i < num_threads) :
    createLoop P samples num_threads B fuel i out = some (none, out) := by
  cases fuel <;> simp [createLoop, h]

theorem createLoop_fail (P : Platform) (samples num_threads : Int) (B : Nat)
    (fuel : Nat) (i : Int) (out : List Event) (h : i < num_threads)
    (hst : P.pthread_create i ≠ 0) :
    createLoop P samples num_threads B (fuel + 1) i out
      = some (some EXIT_FAILURE, out ++ [Event.create i (thread_args samples B i),
          Event.createFailed i (P.pthread_create i)]) := by
  simp [createLoop, h, hst]

/-- While the creations succeed the launch loop advances one thread per
iteration, recording the creation of threads `0 .. k-1`. -/
theorem createLoop_prefix (P : Platform) (samples num_threads : Int) (B : Nat)
    (hn : IsInt num_threads) :
    ∀ k : Nat, (k : Int) ≤ num_threads →
      (∀ j : Nat, j < k → P.pthread_create (j : Int) = 0) →
      ∀ (fuel : Nat) (out : List Event), k ≤ fuel →
        createLoop P samples num_threads B fuel 0 out
          = createLoop P samples num_threads B (fuel - k) (k : Int)
              (out ++ createTrace samples B k) := by
  intro k
  induction k with
  | zero => intro _ _ fuel out _; simp [createTrace]
  | succ k ih =>
    intro hk hc fuel out hf
    rw [ih (by omega) (fun j hj => hc j (by omega)) fuel out (by omega)]
    obtain ⟨f, hfe⟩ : ∃ f, fuel - k = f + 1 := ⟨fuel - k - 1, by omega⟩
    have hf2 : fuel - (k + 1) = f := by omega
    have hlt : (k : Int) < num_threads := by omega
    have hw : wrapInt ((k : Int) + 1) = ((k + 1 : Nat) : Int) := by
      rw [wrapInt_eq_self _ (by unfold IsInt INT_MIN INT_MAX at *; omega)]
      simp
    rw [hfe, hf2]
    simp [createLoop, hlt, hc k (by omega), hw, createTrace]

/-! ## The join/reduce loop -/

theorem joinLoop_done {D : Type} (M : Machine D) (P : Platform) (wfuel : Nat)
    (samples num_threads : Int) (B : Nat) (fuel : Nat) (i total : Int)
    (out : List Event) (h : ¬ i < num_threads) :
    joinLoop M P wfuel samples num_threads B fuel i total out = some (total, out) := by
  cases fuel <;> simp [joinLoop, h]

theorem joinLoop_fail {D : Type} (M : Machine D) (P : Platform) (wfuel : Nat)
    (samples num_threads : Int) (B : Nat) (fuel : Nat) (i total : Int)
    (out : List Event) (h : i < num_threads) (hst : P.pthread_join i ≠ 0) :
    joinLoop M P wfuel samples num_threads B (fuel + 1) i total out
      = some (total, out ++ [Event.join i, Event.joinError (P.pthread_join i)]) := by
  simp [joinLoop, h, hst]

theorem reduce_partialResults_succ {D : Type} (M : Machine D) (P : Platform)
    (samples : Int) (B : Nat) (k : Nat) :
    reduce (partialResults M P samples B (k + 1))
      = accumulate (reduce (partialResults M P samples B k))
          (partialResult M P samples B k) := by
  simp [reduce, partialResults, List.range_succ, List.foldl_append]

/-- While the joins succeed the reduce loop advances one thread per iteration:
after `k` iterations `total_hits` is the reduction of the partial results of
threads `0 .. k-1`. -/
theorem joinLoop_prefix {D : Type} (M : Machine D) (P : Platform) (hw : 32 ≤ M.longBits)
    (wfuel : Nat) (samples num_threads : Int) (B : Nat) (hs : IsInt samples)
    (hn : IsInt num_threads) (hwf : samples.toNat ≤ wfuel) :
    ∀ k : Nat, (k : Int) ≤ num_threads →
      (∀ j : Nat, j < k → P.pthread_join (j : Int) = 0) →
      ∀ (fuel : Nat) (out : List Event), k ≤ fuel →
        joinLoop M P wfuel samples num_threads B fuel 0 0 out
          = joinLoop M P wfuel samples num_threads B (fuel - k) (k : Int)
              (reduce (partialResults M P samples B k)) (out ++ joinTrace P k) := by
  intro k
  induction k with
  | zero => intro _ _ fuel out _; simp [joinTrace, partialResults, reduce]
  | succ k ih =>
    intro hk hc fuel out hf
    rw [ih (by omega) (fun j hj => hc j (by omega)) fuel out (by omega)]
    obtain ⟨f, hfe⟩ : ∃ f, fuel - k = f + 1 := ⟨fuel - k - 1, by omega⟩
    have hf2 : fuel - (k + 1) = f := by omega
    have hlt : (k : Int) < num_threads := by omega
    have hwi : wrapInt ((k : Int) + 1) = ((k + 1 : Nat) : Int) := by
      rw [wrapInt_eq_self _ (by unfold IsInt INT_MIN INT_MAX at *; omega)]
      simp
    have hcalc := calculate_hits_eq M hw wfuel (thread_args samples B (k : Int)) hs hwf
    have hsam : (thread_args samples B (k : Int)).samples = samples := rfl
    rw [hsam] at hcalc
    rw [hfe, hf2, reduce_partialResults_succ]
    by_cases hnull : P.retNull (k : Int) = true
    · simp [joinLoop, hlt, hc k (by omega), hwi, hcalc, hnull, joinTrace, joinEvents,
        partialResult]
    · simp [joinLoop, hlt, hc k (by omega), hwi, hcalc, hnull, joinTrace, joinEvents,
        partialResult]

/-- Either a status function is zero on `0 .. n-1`, or there is a first index
below `n` where it is not. -/
theorem first_failure (f : Int → Int) (n : Nat) :
    (∀ j : Nat, j < n → f (j : Int) = 0) ∨
      ∃ k : Nat, k < n ∧ f (k : Int) ≠ 0 ∧ ∀ j : Nat, j < k → f (j : Int) = 0 := by
  induction n with
  | zero => left; intro j hj; omega
  | succ n ih =>
    rcases ih with h | ⟨k, hk, hne, hall⟩
    · by_cases hz : f (n : Int) = 0
      · left
        intro j hj
        rcases Nat.lt_succ_iff_lt_or_eq.mp hj with h1 | h1
        · exact h j h1
        · rw [h1]; exact hz
      · right
        exact ⟨n, by omega, hz, h⟩
    · right
      exact ⟨k, by omega, hne, hall⟩

/-! ## The reduction and the exact sum -/

theorem exactSum_cons (r : Option Int) (l : List (Option Int)) :
    exactSum (r :: l) = contribution r + exactSum l := by
  simp [exactSum]

/-- Each contribution lying in `[0, S]`, the exact sum lies in `[0, length * S]`. -/
theorem exactSum_bounds (S : Int) :
    ∀ l : List (Option Int), (∀ r ∈ l, 0 ≤ contribution r ∧ contribution r ≤ S) →
      0 ≤ exactSum l ∧ exactSum l ≤ (l.length : Int) * S := by
  intro l
  induction l with
  | nil => intro _; simp [exactSum]
  | cons r l ih =>
    intro h
    have hr := h r (List.mem_cons_self r l)
    have hl := ih (fun x hx => h x (List.mem_cons_of_mem r hx))
    rw [exactSum_cons]
    have e : (((r :: l).length : Nat) : Int) * S = S + (l.length : Int) * S := by
      simp [List.length_cons]; ring
    rw [e]
    constructor <;> omega

/-- Started from a `total_hits` that leaves room for `length * INT_MAX` more,
the accumulation of contributions in `[0, INT_MAX]` never wraps. -/
theorem foldl_accumulate_exact :
    ∀ (l : List (Option Int)) (acc : Int), 0 ≤ acc →
      (∀ r ∈ l, 0 ≤ contribution r ∧ contribution r ≤ INT_MAX) →
      acc + (l.length : Int) * INT_MAX < 9223372036854775808 →
      l.foldl accumulate acc = acc + exactSum l := by
  intro l
  induction l with
  | nil => intro acc _ _ _; simp [exactSum]
  | cons r l ih =>
    intro acc h0 h hb
    have hr := h r (List.mem_cons_self r l)
    have hlen : (((r :: l).length : Nat) : Int) = (l.length : Int) + 1 := by
      simp [List.length_cons]
    rw [hlen] at hb
    unfold INT_MAX at hb hr
    have hacc : accumulate acc r = acc + contribution r := by
      cases r with
      | none => simp [accumulate, contribution]
      | some v =>
        simp only [accumulate, contribution] at hr ⊢
        exact wrapLongLong_eq_self _ (by omega) (by omega)
    rw [List.foldl_cons, hacc, exactSum_cons,
      ih (acc + contribution r) (by omega) (fun x hx => h x (List.mem_cons_of_mem r hx))
        (by unfold INT_MAX; omega)]
    omega

theorem contribution_partialResult {D : Type} (M : Machine D) (P : Platform)
    (samples : Int) (B : Nat) (i : Nat) :
    0 ≤ contribution (partialResult M P samples B i) ∧
      contribution (partialResult M P samples B i) ≤ (samples.toNat : Int) := by
  unfold partialResult
  have := hitsAfter_le M samples.toNat (thread_args samples B (i : Int)).seed
  split
  · simp [contribution]
  · simp only [contribution]
    omega

theorem partialResults_length {D : Type} (M : Machine D) (P : Platform)
    (samples : Int) (B : Nat) (k : Nat) :
    (partialResults M P samples B k).length = k := by
  simp [partialResults]

theorem mem_partialResults {D : Type} (M : Machine D) (P : Platform)
    (samples : Int) (B : Nat) (k : Nat) (r : Option Int)
    (h : r ∈ partialResults M P samples B k) :
    0 ≤ contribution r ∧ contribution r ≤ (samples.toNat : Int) := by
  simp only [partialResults, List.mem_map] at h
  obtain ⟨i, _, rfl⟩ := h
  exact contribution_partialResult M P samples B i

/-- The exact sum of the first `k` partial results is at most `k` times the
sample count of a thread. -/
theorem exactSum_partialResults_bounds {D : Type} (M : Machine D) (P : Platform)
    (samples : Int) (B : Nat) (k : Nat) :
    0 ≤ exactSum (partialResults M P samples B k) ∧
      exactSum (partialResults M P samples B k) ≤ (k : Int) * (samples.toNat : Int) := by
  have h := exactSum_bounds (samples.toNat : Int) (partialResults M P samples B k)
    (mem_partialResults M P samples B k)
  rw [partialResults_length] at h
  exact h

/-- For `int` sample and thread counts the 64-bit accumulation of the first
`k` partial results is their exact sum. -/
theorem reduce_partialResults_exact {D : Type} (M : Machine D) (P : Platform)
    (samples : Int) (B : Nat) (hs : IsInt samples) (k : Nat) (hk : (k : Int) ≤ INT_MAX) :
    reduce (partialResults M P samples B k) = exactSum (partialResults M P samples B k) := by
  unfold reduce
  rw [foldl_accumulate_exact _ 0 (le_refl 0)]
  · simp
  · intro r hr
    have := mem_partialResults M P samples B k r hr
    unfold IsInt INT_MIN INT_MAX at *
    omega
  · rw [partialResults_length]
    unfold INT_MAX at *
    omega

/-! ## Shape of the traces -/

theorem createTrace_isThreadEvent (samples : Int) (B : Nat) :
    ∀ k : Nat, ∀ e ∈ createTrace samples B k, e.isThreadEvent = true := by
  intro k
  induction k with
  | zero => intro e he; simp [createTrace] at he
  | succ k ih =>
    intro e he
    simp only [createTrace, List.mem_append, List.mem_singleton] at he
    rcases he with he | he
    · exact ih e he
    · rw [he]; rfl

theorem joinTrace_isThreadEvent (P : Platform) :
    ∀ k : Nat, ∀ e ∈ joinTrace P k, e.isThreadEvent = true := by
  intro k
  induction k with
  | zero => intro e he; simp [joinTrace] at he
  | succ k ih =>
    intro e he
    simp only [joinTrace, List.mem_append] at he
    rcases he with he | he
    · exact ih e he
    · unfold joinEvents at he
      split at he
      · simp only [List.mem_cons, List.mem_singleton, List.not_mem_nil, or_false] at he
        rcases he with he | he <;> rw [he] <;> rfl
      · simp only [List.mem_singleton] at he
        rw [he]; rfl

theorem joinStop_isThreadEvent (P : Platform) (num_threads : Int) (k : Nat) :
    ∀ e ∈ joinStop P num_threads k, e.isThreadEvent = true := by
  intro e he
  unfold joinStop at he
  split at he
  · simp at he
    rcases he with he | he <;> rw [he] <;> rfl
  · simp at he

theorem createdThreads_createTrace (samples : Int) (B : Nat) :
    ∀ k : Nat, createdThreads (createTrace samples B k)
      = (List.range k).map (fun j : Nat => (j : Int)) := by
  intro k
  induction k with
  | zero => simp [createTrace, createdThreads]
  | succ k ih =>
    unfold createdThreads at ih ⊢
    simp [createTrace, List.filterMap_append, ih, List.range_succ]

theorem joinedThreads_createTrace (samples : Int) (B : Nat) :
    ∀ k : Nat, joinedThreads (createTrace samples B k) = [] := by
  intro k
  induction k with
  | zero => simp [createTrace, joinedThreads]
  | succ k ih =>
    unfold joinedThreads at ih ⊢
    simp [createTrace, List.filterMap_append, ih]

theorem createdThreads_joinTrace (P : Platform) :
    ∀ k : Nat, createdThreads (joinTrace P k) = [] := by
  intro k
  induction k with
  | zero => simp [joinTrace, createdThreads]
  | succ k ih =>
    unfold createdThreads at ih ⊢
    simp only [joinTrace, List.filterMap_append, ih, joinEvents]
    split <;> simp

theorem joinedThreads_joinTrace (P : Platform) :
    ∀ k : Nat, joinedThreads (joinTrace P k)
      = (List.range k).map (fun j : Nat => (j : Int)) := by
  intro k
  induction k with
  | zero => simp [joinTrace, joinedThreads]
  | succ k ih =>
    unfold joinedThreads at ih ⊢
    simp only [joinTrace, List.filterMap_append, ih, joinEvents, List.range_succ,
      List.map_append]
    split <;> simp

/-! ## The runs of `main` -/

/-- The runs of lines 87-155, by the first creation or join that fails. With
`int` counts and a budget of at least `samples` and `num_threads` steps, either
the creation of some thread `k` fails and `main` returns `EXIT_FAILURE` at
once, or every thread is created, the first `k` joins succeed (all of them, or
up to a failing join) and both result lines are printed from the reduction of
the first `k` partial results. -/
theorem mainBody_cases {D : Type} (M : Machine D) (P : Platform) (hw : 32 ≤ M.longBits)
    (fuel : Nat) (samples num_threads : Int) (hs : IsInt samples)
    (hn : IsInt num_threads) (hn0 : 0 ≤ num_threads)
    (hfs : samples.toNat ≤ fuel) (hfn : num_threads.toNat ≤ fuel) :
    (∃ k : Nat, (k : Int) < num_threads ∧ P.pthread_create (k : Int) ≠ 0 ∧
      mainBody M P fuel samples num_threads = some ⟨EXIT_FAILURE,
        createTrace samples (toUInt P.time) k
          ++ [Event.create (k : Int) (thread_args samples (toUInt P.time) (k : Int)),
              Event.createFailed (k : Int) (P.pthread_create (k : Int))]⟩) ∨
    ((∀ j : Nat, (j : Int) < num_threads → P.pthread_create (j : Int) = 0) ∧
      ∃ k : Nat, (k : Int) ≤ num_threads ∧
        (∀ j : Nat, j < k → P.pthread_join (j : Int) = 0) ∧
        ((k : Int) < num_threads → P.pthread_join (k : Int) ≠ 0) ∧
        mainBody M P fuel samples num_threads = some ⟨0,
          createTrace samples (toUInt P.time) num_threads.toNat
            ++ joinTrace P k ++ joinStop P num_threads k
            ++ [Event.hits (reduce (partialResults M P samples (toUInt P.time) k)),
                Event.pi (reduce (partialResults M P samples (toUInt P.time) k))
                  (piDivisor samples num_threads)]⟩) := by
  have hnn : ((num_threads.toNat : Nat) : Int) = num_threads := by omega
  rcases first_failure P.pthread_create num_threads.toNat with hc | ⟨k, hk, hne, hall⟩
  · right
    refine ⟨fun j hj => hc j (by omega), ?_⟩
    have hcreate := createLoop_prefix P samples num_threads (toUInt P.time) hn
      num_threads.toNat (by omega) hc fuel [] hfn
    rw [createLoop_done P samples num_threads (toUInt P.time) (fuel - num_threads.toNat)
      (num_threads.toNat : Int) _ (by omega)] at hcreate
    rcases first_failure P.pthread_join num_threads.toNat with hj | ⟨k, hk, hne, hall⟩
    · refine ⟨num_threads.toNat, by omega, hj, fun h => absurd h (by omega), ?_⟩
      have hjoin := joinLoop_prefix M P hw fuel samples num_threads (toUInt P.time) hs hn hfs
        num_threads.toNat (by omega) hj fuel ([] ++ createTrace samples (toUInt P.time)
          num_threads.toNat) hfn
      rw [joinLoop_done M P fuel samples num_threads (toUInt P.time)
        (fuel - num_threads.toNat) (num_threads.toNat : Int) _ _ (by omega)] at hjoin
      have hstop : joinStop P num_threads num_threads.toNat = [] := by
        simp [joinStop, hnn]
      simp only [mainBody, hcreate, hjoin, hstop]
      simp
    · refine ⟨k, by omega, hall, fun _ => hne, ?_⟩
      have hjoin := joinLoop_prefix M P hw fuel samples num_threads (toUInt P.time) hs hn hfs
        k (by omega) hall fuel ([] ++ createTrace samples (toUInt P.time)
          num_threads.toNat) (by omega)
      obtain ⟨f, hfe⟩ : ∃ f, fuel - k = f + 1 := ⟨fuel - k - 1, by omega⟩
      rw [hfe, joinLoop_fail M P fuel samples num_threads (toUInt P.time) f (k : Int) _ _
        (by omega) hne] at hjoin
      have hstop : joinStop P num_threads k
          = [Event.join (k : Int), Event.joinError (P.pthread_join (k : Int))] := by
        have : (k : Int) < num_threads := by omega
        simp [joinStop, this]
      simp only [mainBody, hcreate, hjoin, hstop]
      simp
  · left
    refine ⟨k, by omega, hne, ?_⟩
    have hcreate := createLoop_prefix P samples num_threads (toUInt P.time) hn
      k (by omega) hall fuel [] (by omega)
    obtain ⟨f, hfe⟩ : ∃ f, fuel - k = f + 1 := ⟨fuel - k - 1, by omega⟩
    rw [hfe, createLoop_fail P samples num_threads (toUInt P.time) f (k : Int) _
      (by omega) hne] at hcreate
    simp only [mainBody, hcreate]
    simp

/-! ## What the loops may add to the trace, for any budget and any platform -/

theorem createLoop_events (P : Platform) (samples num_threads : Int) (B : Nat) :
    ∀ (fuel : Nat) (i : Int) (out : List Event) (res : Option Int × List Event),
      createLoop P samples num_threads B fuel i out = some res →
      ∃ ext : List Event, res.2 = out ++ ext ∧ ∀ e ∈ ext, e.isThreadEvent = true := by
  intro fuel
  induction fuel with
  | zero =>
    intro i out res h
    simp only [createLoop] at h
    split at h
    · exact absurd h (by simp)
    · refine ⟨[], ?_, by simp⟩
      cases h; simp
  | succ fuel ih =>
    intro i out res h
    simp only [createLoop] at h
    split at h
    · split at h
      · refine ⟨[Event.create i (thread_args samples B i),
          Event.createFailed i (P.pthread_create i)], ?_, ?_⟩
        · cases h; rfl
        · intro e he
          simp only [List.mem_cons, List.mem_singleton, List.not_mem_nil, or_false] at he
          rcases he with he | he <;> rw [he] <;> rfl
      · obtain ⟨ext, hext, hall⟩ := ih _ _ res h
        refine ⟨Event.create i (thread_args samples B i) :: ext, ?_, ?_⟩
        · rw [hext]; simp
        · intro e he
          rcases List.mem_cons.mp he with he | he
          · rw [he]; rfl
          · exact hall e he
    · refine ⟨[], ?_, by simp⟩
      cases h; simp

theorem joinLoop_events {D : Type} (M : Machine D) (P : Platform) (wfuel : Nat)
    (samples num_threads : Int) (B : Nat) :
    ∀ (fuel : Nat) (i total : Int) (out : List Event) (res : Int × List Event),
      joinLoop M P wfuel samples num_threads B fuel i total out = some res →
      ∃ ext : List Event, res.2 = out ++ ext ∧ ∀ e ∈ ext, e.isThreadEvent = true := by
  intro fuel
  induction fuel with
  | zero =>
    intro i total out res h
    simp only [joinLoop] at h
    split at h
    · exact absurd h (by simp)
    · refine ⟨[], ?_, by simp⟩
      cases h; simp
  | succ fuel ih =>
    intro i total out res h
    simp only [joinLoop] at h
    split at h
    · split at h
      · refine ⟨[Event.join i, Event.joinError (P.pthread_join i)], ?_, ?_⟩
        · cases h; rfl
        · intro e he
          simp only [List.mem_cons, List.mem_singleton, List.not_mem_nil, or_false] at he
          rcases he with he | he <;> rw [he] <;> rfl
      · split at h
        · exact absurd h (by simp)
        · split at h
          · obtain ⟨ext, hext, hall⟩ := ih _ _ _ res h
            refine ⟨Event.join i :: Event.returnedNull i :: ext, ?_, ?_⟩
            · rw [hext]; simp
            · intro e he
              simp only [List.mem_cons] at he
              rcases he with he | he | he
              · rw [he]; rfl
              · rw [he]; rfl
              · exact hall e he
          · obtain ⟨ext, hext, hall⟩ := ih _ _ _ res h
            refine ⟨Event.join i :: ext, ?_, ?_⟩
            · rw [hext]; simp
            · intro e he
              rcases List.mem_cons.mp he with he | he
              · rw [he]; rfl
              · exact hall e he
    · refine ⟨[], ?_, by simp⟩
      cases h; simp

/-- Whatever the budget and the platform, lines 87-155 never print the
rejection message. -/
theorem mainBody_not_rejected {D : Type} (M : Machine D) (P : Platform) (fuel : Nat)
    (samples num_threads : Int) (r : Outcome)
    (h : mainBody M P fuel samples num_threads = some r) :
    Event.invalidThreads ∉ r.out := by
  simp only [mainBody] at h
  split at h
  · exact absurd h (by simp)
  · rename_i status out hc
    obtain ⟨ext, hext, hall⟩ := createLoop_events P samples num_threads _ _ _ _ _ hc
    cases h
    simp only [List.nil_append] at hext
    simp only [hext]
    intro hmem
    have := hall _ hmem
    simp [Event.isThreadEvent] at this
  · rename_i out hc
    obtain ⟨ext, hext, hall⟩ := createLoop_events P samples num_threads _ _ _ _ _ hc
    simp only [List.nil_append] at hext
    split at h
    · exact absurd h (by simp)
    · rename_i total out1 hj
      obtain ⟨ext1, hext1, hall1⟩ := joinLoop_events M P _ samples num_threads _ _ _ _ _ _ hj
      cases h
      simp only at hext hext1
      simp only [hext1, hext, List.mem_append, List.mem_cons, List.mem_singleton,
        List.not_mem_nil, or_false]
      intro hmem
      rcases hmem with (hmem | hmem) | hmem | hmem
      · have := hall _ hmem
        simp [Event.isThreadEvent] at this
      · have := hall1 _ hmem
        simp [Event.isThreadEvent] at this
      · cases hmem
      · cases hmem

theorem main_of_valid {D : Type} (M : Machine D) (P : Platform) (fuel : Nat)
    (a0 samples num_threads : Int) (rest : List Int) (h : 0 < num_threads) :
    main M P fuel (a0 :: samples :: num_threads :: rest)
      = mainBody M P fuel samples num_threads := by
  have h1 : ¬ num_threads ≤ 0 := by omega
  have h2 : (1 : Int) < ((rest.length : Nat) : Int) + 1 + 1 + 1 := by omega
  have h3 : (2 : Int) < ((rest.length : Nat) : Int) + 1 + 1 + 1 := by omega
  simp [main, h1, h2, h3]

/-- The only `hits` line of a trace made of thread events followed by the two
result lines is the one printed at the end. -/
theorem hits_mem_unique (pre : List Event) (T0 d T : Int)
    (hpre : ∀ e ∈ pre, e.isThreadEvent = true)
    (h : Event.hits T ∈ pre ++ [Event.hits T0, Event.pi T0 d]) : T = T0 := by
  simp only [List.mem_append, List.mem_cons, List.mem_singleton, List.not_mem_nil,
    or_false] at h
  rcases h with h | h | h
  · have := hpre _ h
    simp [Event.isThreadEvent] at this
  · cases h; rfl
  · cases h

/-- When the product is representable the `int` divisor is the exact product. -/
theorem piDivisor_exact (samples num_threads : Int) (h : IsInt (samples * num_threads)) :
    piDivisor samples num_threads = samples * num_threads :=
  wrapInt_eq_self _ h

/-- The 64-bit reduction is the exact sum reduced to 64 bits. -/
theorem foldl_accumulate_wrap :
    ∀ (l : List (Option Int)) (acc : Int),
      l.foldl accumulate (wrapLongLong acc) = wrapLongLong (acc + exactSum l) := by
  intro l
  induction l with
  | nil => intro acc; simp [exactSum]
  | cons r l ih =>
    intro acc
    rw [List.foldl_cons, exactSum_cons]
    cases r with
    | none =>
      simp only [accumulate, contribution]
      rw [ih acc]
      congr 1
      omega
    | some v =>
      have hstep : accumulate (wrapLongLong acc) (some v) = wrapLongLong (acc + v) := by
        simp only [accumulate, wrapLongLong, wrapSigned]
        norm_num
        omega
      rw [hstep, ih (acc + v)]
      simp only [contribution]
      congr 1
      omega

theorem reduce_eq_wrap (l : List (Option Int)) : reduce l = wrapLongLong (exactSum l) := by
  have h := foldl_accumulate_wrap l 0
  have h0 : wrapLongLong 0 = 0 := by decide
  rw [h0] at h
  unfold reduce
  rw [h]
  simp

theorem exactSum_perm (l l' : List (Option Int)) (h : l.Perm l') :
    exactSum l = exactSum l' := by
  unfold exactSum
  exact (h.map contribution).sum_eq

/-! ## Properties of the sampling worker and of the seeds -/

/-- C1: for a sample count `samples ≥ 0` (an `int`) and any random stream, the
thread function leaves its loop after exactly `samples` iterations (the counter
`i` equals `samples` and the generator has advanced by `samples` points), has
incremented `hits` once for each point that passes the test, and returns a hit
count in `[0, samples]`, given a budget of `samples` steps. -/
theorem calculate_hits_in_range {D : Type} (M : Machine D) (hw : 32 ≤ M.longBits)
    (arg : Samples_Seed) (hs : IsInt arg.samples) (h0 : 0 ≤ arg.samples)
    (fuel : Nat) (hf : arg.samples.toNat ≤ fuel) :
    ∃ st : LoopState, hitsLoop M arg.samples fuel 0 0 arg.seed = some st ∧
      st.i = arg.samples ∧ st.seed = seedAfter M arg.samples.toNat arg.seed ∧
      st.hits = (hitsAfter M arg.samples.toNat arg.seed : Nat) ∧
      calculate_hits M fuel arg = some st.hits ∧ 0 ≤ st.hits ∧ st.hits ≤ arg.samples := by
  have hmax : arg.samples ≤ INT_MAX := hs.2
  have h := hitsLoop_run M arg.samples hw hmax arg.samples.toNat fuel 0 arg.seed hf
    (by omega) (le_refl 0) (by omega)
  have hz : arg.samples - (arg.samples.toNat : Int) = 0 := by omega
  rw [hz] at h
  have hle := hitsAfter_le M arg.samples.toNat arg.seed
  refine ⟨_, h, rfl, rfl, ?_, ?_, ?_, ?_⟩
  · simp
  · simp [calculate_hits, h]
  · simp only []
    omega
  · simp only []
    omega

/-- Instance of C1 on the concrete machine: five points from the seed `(1,2,3)`. -/
theorem calculate_hits_in_range_witness :
    ∃ st : LoopState, hitsLoop lcgMachine 5 5 0 0 ⟨1, 2, 3⟩ = some st ∧
      st.i = 5 ∧ st.seed = seedAfter lcgMachine (5 : Int).toNat ⟨1, 2, 3⟩ ∧
      st.hits = (hitsAfter lcgMachine (5 : Int).toNat ⟨1, 2, 3⟩ : Nat) ∧
      calculate_hits lcgMachine 5 ⟨5, ⟨1, 2, 3⟩⟩ = some st.hits ∧ 0 ≤ st.hits ∧
      st.hits ≤ 5 :=
  calculate_hits_in_range lcgMachine (by decide) ⟨5, ⟨1, 2, 3⟩⟩ (by decide) (by decide) 5
    (by decide)

/-- C2: for every base value `B` and at most `2^16` workers, two distinct
worker indices get different seed triples, the triple of index `i` being
`(v & 0xFFFF, (v >> 8) & 0xFFFF, (v >> 16) & 0xFFFF)` with `v = (B + i) mod 2^32`. -/
theorem seeds_distinct (samples : Int) (B : Nat) (num_workers : Int)
    (hpos : 0 < num_workers) (hn : num_workers ≤ 2 ^ 16) (i j : Int)
    (hi0 : 0 ≤ i) (hi : i < num_workers) (hj0 : 0 ≤ j) (hj : j < num_workers)
    (hij : i ≠ j) :
    (thread_args samples B i).seed ≠ (thread_args samples B j).seed ∧
      (thread_args samples B i).seed
        = ⟨((B + i.toNat) % 2 ^ 32) &&& 0xFFFF,
           (((B + i.toNat) % 2 ^ 32) >>> 8) &&& 0xFFFF,
           (((B + i.toNat) % 2 ^ 32) >>> 16) &&& 0xFFFF⟩ := by
  norm_num at hn
  constructor
  · intro h
    exact hij (thread_args_seed_injective samples B i j (by omega) (by omega) h)
  · have hv : toUInt ((B : Int) + i) = (B + i.toNat) % 2 ^ 32 := by
      unfold toUInt
      have e : ((B : Int) + i) = ((B + i.toNat : Nat) : Int) := by
        push_cast
        omega
      rw [e]
      norm_cast
    have m0 := Nat.and_pow_two_sub_one_eq_mod (toUInt ((B : Int) + i)) 16
    have m1 := Nat.and_pow_two_sub_one_eq_mod (toUInt ((B : Int) + i) >>> 8) 16
    have m2 := Nat.and_pow_two_sub_one_eq_mod (toUInt ((B : Int) + i) >>> 16) 16
    norm_num at m0 m1 m2
    simp only [thread_args, toUShort, ← hv]
    norm_num
    rw [m0, m1, m2]
    exact ⟨Nat.mod_lt _ (by norm_num), Nat.mod_lt _ (by norm_num), Nat.mod_lt _ (by norm_num)⟩

/-- Instance of C2: workers `0` and `1` of three, base value `1700000000`. -/
theorem seeds_distinct_witness :
    (thread_args 5 1700000000 0).seed ≠ (thread_args 5 1700000000 1).seed ∧
      (thread_args 5 1700000000 0).seed
        = ⟨((1700000000 + (0 : Int).toNat) % 2 ^ 32) &&& 0xFFFF,
           (((1700000000 + (0 : Int).toNat) % 2 ^ 32) >>> 8) &&& 0xFFFF,
           (((1700000000 + (0 : Int).toNat) % 2 ^ 32) >>> 16) &&& 0xFFFF⟩ :=
  seeds_distinct 5 1700000000 3 (by decide) (by decide) 0 1 (by decide)
    (by decide) (by decide) (by decide) (by decide)

/-! ## Validation of the worker count -/

/-- C7: a worker-count argument `≤ 0` makes `main` return `EXIT_FAILURE`
(non-zero) having only printed the rejection message: no thread is created, no
seed derived, neither result line printed. A worker count `> 0`, or an absent
one (then `N_THREADS = 32`), passes this check: `main` continues with lines
87-155 and never prints the rejection message. -/
theorem worker_count_validation {D : Type} (M : Machine D) (P : Platform) (fuel : Nat)
    (a0 samples num_threads : Int) (rest : List Int) :
    (num_threads ≤ 0 →
      main M P fuel (a0 :: samples :: num_threads :: rest)
        = some ⟨EXIT_FAILURE, [Event.invalidThreads]⟩ ∧ EXIT_FAILURE ≠ 0) ∧
    (0 < num_threads →
      main M P fuel (a0 :: samples :: num_threads :: rest)
        = mainBody M P fuel samples num_threads ∧
      ∀ r, main M P fuel (a0 :: samples :: num_threads :: rest) = some r →
        Event.invalidThreads ∉ r.out) ∧
    (main M P fuel [a0, samples] = mainBody M P fuel samples N_THREADS ∧
      main M P fuel [a0] = mainBody M P fuel TOTAL_POINTS N_THREADS ∧
      main M P fuel [] = mainBody M P fuel TOTAL_POINTS N_THREADS ∧
      N_THREADS = 32 ∧
      ∀ argv r, argv.length ≤ 2 → main M P fuel argv = some r →
        Event.invalidThreads ∉ r.out) := by
  have h2 : (1 : Int) < ((rest.length : Nat) : Int) + 1 + 1 + 1 := by omega
  have h3 : (2 : Int) < ((rest.length : Nat) : Int) + 1 + 1 + 1 := by omega
  refine ⟨?_, ?_, ?_, ?_, ?_, rfl, ?_⟩
  · intro h
    refine ⟨?_, by decide⟩
    simp [main, h, h2, h3]
  · intro h
    rw [main_of_valid M P fuel a0 samples num_threads rest h]
    exact ⟨rfl, fun r hr => mainBody_not_rejected M P fuel samples num_threads r hr⟩
  · simp [main]
  · simp [main]
  · simp [main]
  · intro argv r hlen hr
    have hnot : ¬ ((argv.length : Int) > 2) := by omega
    simp only [main, hnot, if_false] at hr
    exact mainBody_not_rejected M P fuel _ _ r hr

/-- Instance of C7: the worker count `-3` is rejected. -/
theorem worker_count_validation_witness :
    main lcgMachine calmPlatform 5 [0, 7, -3] = some ⟨EXIT_FAILURE, [Event.invalidThreads]⟩ ∧
      EXIT_FAILURE ≠ 0 :=
  (worker_count_validation lcgMachine calmPlatform 5 0 7 (-3) []).1 (by decide)

/-! ## Order independence of the reduction -/

/-- C8: the reducer's summation gives the same `total_hits` on a list of
partial results (`none` for a missing result) and on any permutation of it. -/
theorem reduce_perm (results permuted : List (Option Int)) (h : results.Perm permuted) :
    reduce results = reduce permuted := by
  rw [reduce_eq_wrap, reduce_eq_wrap, exactSum_perm results permuted h]

/-- Instance of C8 on three results, one of them missing. -/
theorem reduce_perm_witness :
    reduce [some 3, none, some 5] = reduce [none, some 5, some 3] :=
  reduce_perm [some 3, none, some 5] [none, some 5, some 3] (by decide)

/-! ## The join/reduce loop in `main` -/

/-- The partial result of thread `j` is what `calculate_hits` returns on the
record built for thread `j`, unless the join delivers `NULL`. -/
theorem partialResult_eq_calculate_hits {D : Type} (M : Machine D) (P : Platform)
    (hw : 32 ≤ M.longBits) (fuel : Nat) (samples : Int) (B : Nat) (hs : IsInt samples)
    (hfs : samples.toNat ≤ fuel) (j : Nat) :
    ∃ h : Int, calculate_hits M fuel (thread_args samples B (j : Int)) = some h ∧
      partialResult M P samples B j = if P.retNull (j : Int) = true then none else some h :=
  ⟨_, calculate_hits_eq M hw fuel (thread_args samples B (j : Int)) hs hfs, rfl⟩

/-- C3: for `num_threads > 0`, when every creation and every join succeeds,
`main` creates threads `0 .. num_threads-1`, joins exactly these threads in
order, consumes one partial result per thread, and prints as `total_hits` the
sum of the partial hit counts, a `NULL` result counting as zero and not
stopping the loop. -/
theorem reducer_consumes_every_result {D : Type} (M : Machine D) (P : Platform)
    (hw : 32 ≤ M.longBits) (fuel : Nat) (a0 samples num_threads : Int) (rest : List Int)
    (hs : IsInt samples) (hn : IsInt num_threads) (hpos : 0 < num_threads)
    (hfs : samples.toNat ≤ fuel) (hfn : num_threads.toNat ≤ fuel)
    (hc : ∀ j : Nat, (j : Int) < num_threads → P.pthread_create (j : Int) = 0)
    (hj : ∀ j : Nat, (j : Int) < num_threads → P.pthread_join (j : Int) = 0) :
    ∃ r : Outcome, main M P fuel (a0 :: samples :: num_threads :: rest) = some r ∧
      r.status = 0 ∧
      r.out = createTrace samples (toUInt P.time) num_threads.toNat
        ++ joinTrace P num_threads.toNat
        ++ [Event.hits (exactSum (partialResults M P samples (toUInt P.time)
              num_threads.toNat)),
            Event.pi (exactSum (partialResults M P samples (toUInt P.time)
              num_threads.toNat)) (piDivisor samples num_threads)] ∧
      createdThreads r.out = (List.range num_threads.toNat).map (fun j : Nat => (j : Int)) ∧
      joinedThreads r.out = (List.range num_threads.toNat).map (fun j : Nat => (j : Int)) ∧
      (partialResults M P samples (toUInt P.time) num_threads.toNat).length
        = num_threads.toNat ∧
      ∀ j : Nat, ∃ h : Int,
        calculate_hits M fuel (thread_args samples (toUInt P.time) (j : Int)) = some h ∧
        partialResult M P samples (toUInt P.time) j
          = if P.retNull (j : Int) = true then none else some h := by
  rw [main_of_valid M P fuel a0 samples num_threads rest hpos]
  rcases mainBody_cases M P hw fuel samples num_threads hs hn (by omega) hfs hfn with
    ⟨k, hk, hne, _⟩ | ⟨_, k, hk, hall, hstop, hrun⟩
  · exact absurd (hc k hk) hne
  · have hkn : k = num_threads.toNat := by
      by_contra hcon
      have hlt : (k : Int) < num_threads := by omega
      exact hstop hlt (hj k hlt)
    subst hkn
    have hnn : ((num_threads.toNat : Nat) : Int) = num_threads := by omega
    have hs0 : joinStop P num_threads num_threads.toNat = [] := by
      simp [joinStop, hnn]
    have hex := reduce_partialResults_exact M P samples (toUInt P.time) hs num_threads.toNat
      (by rw [hnn]; exact hn.2)
    rw [hs0, hex, List.append_nil] at hrun
    refine ⟨_, hrun, rfl, rfl, ?_, ?_, partialResults_length M P samples _ _,
      partialResult_eq_calculate_hits M P hw fuel samples _ hs hfs⟩
    · have h1 := createdThreads_createTrace samples (toUInt P.time) num_threads.toNat
      have h2 := createdThreads_joinTrace P num_threads.toNat
      unfold createdThreads at h1 h2 ⊢
      simp only [List.filterMap_append, h1, h2]
      simp
    · have h1 := joinedThreads_createTrace samples (toUInt P.time) num_threads.toNat
      have h2 := joinedThreads_joinTrace P num_threads.toNat
      unfold joinedThreads at h1 h2 ⊢
      simp only [List.filterMap_append, h1, h2]
      simp

/-- Instance of C3: three workers of five samples on the calm platform. -/
theorem reducer_consumes_every_result_witness :
    ∃ r : Outcome, main lcgMachine calmPlatform 5 [0, 5, 3] = some r ∧
      r.status = 0 ∧
      r.out = createTrace 5 (toUInt calmPlatform.time) (3 : Int).toNat
        ++ joinTrace calmPlatform (3 : Int).toNat
        ++ [Event.hits (exactSum (partialResults lcgMachine calmPlatform 5
              (toUInt calmPlatform.time) (3 : Int).toNat)),
            Event.pi (exactSum (partialResults lcgMachine calmPlatform 5
              (toUInt calmPlatform.time) (3 : Int).toNat)) (piDivisor 5 3)] ∧
      createdThreads r.out = (List.range (3 : Int).toNat).map (fun j : Nat => (j : Int)) ∧
      joinedThreads r.out = (List.range (3 : Int).toNat).map (fun j : Nat => (j : Int)) ∧
      (partialResults lcgMachine calmPlatform 5 (toUInt calmPlatform.time)
        (3 : Int).toNat).length = (3 : Int).toNat ∧
      ∀ j : Nat, ∃ h : Int,
        calculate_hits lcgMachine 5 (thread_args 5 (toUInt calmPlatform.time) (j : Int))
          = some h ∧
        partialResult lcgMachine calmPlatform 5 (toUInt calmPlatform.time) j
          = if calmPlatform.retNull (j : Int) = true then none else some h :=
  reducer_consumes_every_result lcgMachine calmPlatform (by decide) 5 0 5 3 []
    (by decide) (by decide) (by decide) (by decide) (by decide)
    (fun _ _ => rfl) (fun _ _ => rfl)

/-- C9: if the join of thread `k` fails and the joins of threads `0 .. k-1`
succeeded (every thread having been created), the loop stops at `k`:
`total_hits` is the sum of the partial hit counts of threads `0 .. k-1`, no
later thread is joined, and `main` still prints both result lines from that
total and returns `0`. -/
theorem join_failure_stops_reduction {D : Type} (M : Machine D) (P : Platform)
    (hw : 32 ≤ M.longBits) (fuel : Nat) (a0 samples num_threads : Int) (rest : List Int)
    (hs : IsInt samples) (hn : IsInt num_threads) (hpos : 0 < num_threads)
    (hfs : samples.toNat ≤ fuel) (hfn : num_threads.toNat ≤ fuel)
    (hc : ∀ j : Nat, (j : Int) < num_threads → P.pthread_create (j : Int) = 0)
    (k : Nat) (hk : (k : Int) < num_threads) (hfail : P.pthread_join (k : Int) ≠ 0)
    (hj : ∀ j : Nat, j < k → P.pthread_join (j : Int) = 0) :
    ∃ r : Outcome, main M P fuel (a0 :: samples :: num_threads :: rest) = some r ∧
      r.status = 0 ∧
      r.out = createTrace samples (toUInt P.time) num_threads.toNat
        ++ joinTrace P k
        ++ [Event.join (k : Int), Event.joinError (P.pthread_join (k : Int))]
        ++ [Event.hits (exactSum (partialResults M P samples (toUInt P.time) k)),
            Event.pi (exactSum (partialResults M P samples (toUInt P.time) k))
              (piDivisor samples num_threads)] ∧
      joinedThreads r.out = (List.range (k + 1)).map (fun j : Nat => (j : Int)) ∧
      ∀ j : Nat, ∃ h : Int,
        calculate_hits M fuel (thread_args samples (toUInt P.time) (j : Int)) = some h ∧
        partialResult M P samples (toUInt P.time) j
          = if P.retNull (j : Int) = true then none else some h := by
  rw [main_of_valid M P fuel a0 samples num_threads rest hpos]
  rcases mainBody_cases M P hw fuel samples num_threads hs hn (by omega) hfs hfn with
    ⟨k', hk', hne, _⟩ | ⟨_, k', hk', hall, hstop, hrun⟩
  · exact absurd (hc k' hk') hne
  · have hkk : k' = k := by
      rcases Nat.lt_trichotomy k' k with h | h | h
      · exact absurd (hj k' h) (hstop (by omega))
      · exact h
      · exact absurd (hall k h) hfail
    subst hkk
    have hs0 : joinStop P num_threads k'
        = [Event.join (k' : Int), Event.joinError (P.pthread_join (k' : Int))] := by
      simp [joinStop, hk]
    have hex := reduce_partialResults_exact M P samples (toUInt P.time) hs k'
      (by have := hn.2; omega)
    rw [hs0, hex] at hrun
    refine ⟨_, hrun, rfl, rfl, ?_,
      partialResult_eq_calculate_hits M P hw fuel samples _ hs hfs⟩
    have h1 := joinedThreads_createTrace samples (toUInt P.time) num_threads.toNat
    have h2 := joinedThreads_joinTrace P k'
    unfold joinedThreads at h1 h2 ⊢
    simp only [List.filterMap_append, h1, h2]
    simp [List.range_succ]

/-- Instance of C9: on the rough platform the join of thread `1` of three fails. -/
theorem join_failure_stops_reduction_witness :
    ∃ r : Outcome, main lcgMachine roughPlatform 5 [0, 5, 3] = some r ∧
      r.status = 0 ∧
      r.out = createTrace 5 (toUInt roughPlatform.time) (3 : Int).toNat
        ++ joinTrace roughPlatform 1
        ++ [Event.join ((1 : Nat) : Int),
            Event.joinError (roughPlatform.pthread_join ((1 : Nat) : Int))]
        ++ [Event.hits (exactSum (partialResults lcgMachine roughPlatform 5
              (toUInt roughPlatform.time) 1)),
            Event.pi (exactSum (partialResults lcgMachine roughPlatform 5
              (toUInt roughPlatform.time) 1)) (piDivisor 5 3)] ∧
      joinedThreads r.out = (List.range (1 + 1)).map (fun j : Nat => (j : Int)) ∧
      ∀ j : Nat, ∃ h : Int,
        calculate_hits lcgMachine 5 (thread_args 5 (toUInt roughPlatform.time) (j : Int))
          = some h ∧
        partialResult lcgMachine roughPlatform 5 (toUInt roughPlatform.time) j
          = if roughPlatform.retNull (j : Int) = true then none else some h :=
  join_failure_stops_reduction lcgMachine roughPlatform (by decide) 5 0 5 3 []
    (by decide) (by decide) (by decide) (by decide) (by decide)
    (fun _ _ => rfl) 1 (by decide) (by decide)
    (fun j hj => by
      have h0 : j = 0 := by omega
      subst h0
      decide)

/-! ## Totals -/

/-- Every thread is handed the full sample count, so the counts handed to `k`
threads add up to `k * samples`. -/
theorem assignedSamples_eq (samples : Int) (B : Nat) :
    ∀ k : Nat, assignedSamples samples B k = (k : Int) * samples := by
  intro k
  induction k with
  | zero => simp [assignedSamples]
  | succ k ih =>
    unfold assignedSamples at ih ⊢
    rw [List.range_succ, List.map_append, List.sum_append, ih]
    simp [thread_args]
    ring

/-- C4: in every run with `samples ≥ 0` and `num_threads > 0`, whatever the
random streams and whichever creations or joins fail or deliver `NULL`, `main`
terminates and any `total_hits` it prints lies between `0` and
`samples * num_threads`, the sum of the sample counts handed to the threads;
a run that returns `0` does print it. -/
theorem total_hits_le_total_samples {D : Type} (M : Machine D) (P : Platform)
    (hw : 32 ≤ M.longBits) (fuel : Nat) (a0 samples num_threads : Int) (rest : List Int)
    (hs : IsInt samples) (hn : IsInt num_threads) (h0 : 0 ≤ samples)
    (hpos : 0 < num_threads)
    (hfs : samples.toNat ≤ fuel) (hfn : num_threads.toNat ≤ fuel) :
    ∃ r : Outcome, main M P fuel (a0 :: samples :: num_threads :: rest) = some r ∧
      (∀ T : Int, Event.hits T ∈ r.out → 0 ≤ T ∧ T ≤ samples * num_threads) ∧
      (r.status = 0 → ∃ T : Int, Event.hits T ∈ r.out) ∧
      assignedSamples samples (toUInt P.time) num_threads.toNat = samples * num_threads := by
  rw [main_of_valid M P fuel a0 samples num_threads rest hpos]
  have hnn : ((num_threads.toNat : Nat) : Int) = num_threads := by omega
  have hsum : assignedSamples samples (toUInt P.time) num_threads.toNat
      = samples * num_threads := by
    rw [assignedSamples_eq, hnn, mul_comm]
  rcases mainBody_cases M P hw fuel samples num_threads hs hn (by omega) hfs hfn with
    ⟨k, hk, hne, hrun⟩ | ⟨_, k, hk, hall, hstop, hrun⟩
  · refine ⟨_, hrun, ?_, ?_, hsum⟩
    · intro T hT
      exfalso
      simp only [List.mem_append, List.mem_cons, List.mem_singleton, List.not_mem_nil,
        or_false] at hT
      rcases hT with hT | hT | hT
      · have := createTrace_isThreadEvent samples (toUInt P.time) k _ hT
        simp [Event.isThreadEvent] at this
      · cases hT
      · cases hT
    · intro hst
      have hne1 : EXIT_FAILURE ≠ 0 := by decide
      exact absurd hst hne1
  · have hex := reduce_partialResults_exact M P samples (toUInt P.time) hs k
      (by have := hn.2; omega)
    have hb := exactSum_partialResults_bounds M P samples (toUInt P.time) k
    have hst : ((samples.toNat : Nat) : Int) = samples := by omega
    rw [hst] at hb
    have hmul : (k : Int) * samples ≤ num_threads * samples :=
      mul_le_mul_of_nonneg_right hk h0
    rw [hex] at hrun
    refine ⟨_, hrun, ?_, ?_, hsum⟩
    · intro T hT
      have hpre : ∀ e ∈ createTrace samples (toUInt P.time) num_threads.toNat
          ++ joinTrace P k ++ joinStop P num_threads k, e.isThreadEvent = true := by
        intro e he
        simp only [List.mem_append] at he
        rcases he with (he | he) | he
        · exact createTrace_isThreadEvent _ _ _ e he
        · exact joinTrace_isThreadEvent _ _ e he
        · exact joinStop_isThreadEvent _ _ _ e he
      have hTe := hits_mem_unique _ _ _ T hpre hT
      rw [hTe, mul_comm samples num_threads]
      exact ⟨hb.1, le_trans hb.2 hmul⟩
    · intro _
      exact ⟨exactSum (partialResults M P samples (toUInt P.time) k), by simp⟩

/-- Instance of C4: three workers of five samples on the rough platform. -/
theorem total_hits_le_total_samples_witness :
    ∃ r : Outcome, main lcgMachine roughPlatform 5 [0, 5, 3] = some r ∧
      (∀ T : Int, Event.hits T ∈ r.out → 0 ≤ T ∧ T ≤ 5 * 3) ∧
      (r.status = 0 → ∃ T : Int, Event.hits T ∈ r.out) ∧
      assignedSamples 5 (toUInt roughPlatform.time) (3 : Int).toNat = 5 * 3 :=
  total_hits_le_total_samples lcgMachine roughPlatform (by decide) 5 0 5 3 []
    (by decide) (by decide) (by decide) (by decide) (by decide) (by decide)

/-- C10: for `int` sample and thread counts (`num_threads > 0`) no accumulator
overflows. Each thread returns the exact number of hits among its points, at
most `max samples 0 ≤ 2^31 - 1`; the 64-bit accumulation of the first `k`
partial results, `k ≤ num_threads`, equals their exact sum, which is at most
`(2^31 - 1)^2 < 2^63`; and any `total_hits` that `main` prints is such a sum. -/
theorem accumulators_do_not_overflow {D : Type} (M : Machine D) (P : Platform)
    (hw : 32 ≤ M.longBits) (fuel : Nat) (a0 samples num_threads : Int) (rest : List Int)
    (hs : IsInt samples) (hn : IsInt num_threads) (hpos : 0 < num_threads)
    (hfs : samples.toNat ≤ fuel) (hfn : num_threads.toNat ≤ fuel) :
    (∀ i : Int,
      calculate_hits M fuel (thread_args samples (toUInt P.time) i)
        = some (hitsAfter M samples.toNat (thread_args samples (toUInt P.time) i).seed : Nat) ∧
      ((hitsAfter M samples.toNat (thread_args samples (toUInt P.time) i).seed : Nat) : Int)
        ≤ max samples 0 ∧
      max samples 0 ≤ 2 ^ 31 - 1) ∧
    (∀ k : Nat, (k : Int) ≤ num_threads →
      reduce (partialResults M P samples (toUInt P.time) k)
        = exactSum (partialResults M P samples (toUInt P.time) k) ∧
      0 ≤ exactSum (partialResults M P samples (toUInt P.time) k) ∧
      exactSum (partialResults M P samples (toUInt P.time) k) ≤ (2 ^ 31 - 1) ^ 2 ∧
      ((2 : Int) ^ 31 - 1) ^ 2 < 2 ^ 63) ∧
    (∃ r : Outcome, main M P fuel (a0 :: samples :: num_threads :: rest) = some r ∧
      ∀ T : Int, Event.hits T ∈ r.out → ∃ k : Nat, (k : Int) ≤ num_threads ∧
        T = reduce (partialResults M P samples (toUInt P.time) k) ∧
        T = exactSum (partialResults M P samples (toUInt P.time) k)) := by
  have hsmax : samples ≤ 2147483647 := hs.2
  have hnmax : num_threads ≤ 2147483647 := hn.2
  refine ⟨?_, ?_, ?_⟩
  · intro i
    have hcalc := calculate_hits_eq M hw fuel (thread_args samples (toUInt P.time) i) hs hfs
    have hle := hitsAfter_le M samples.toNat (thread_args samples (toUInt P.time) i).seed
    refine ⟨hcalc, ?_, ?_⟩
    · rcases le_total samples 0 with h | h
      · rw [max_eq_right h]; omega
      · rw [max_eq_left h]; omega
    · rcases le_total samples 0 with h | h
      · rw [max_eq_right h]; norm_num
      · rw [max_eq_left h]; norm_num; omega
  · intro k hk
    have hex := reduce_partialResults_exact M P samples (toUInt P.time) hs k
      (by unfold INT_MAX; omega)
    have hb := exactSum_partialResults_bounds M P samples (toUInt P.time) k
    have hmul : (k : Int) * (samples.toNat : Int) ≤ 2147483647 * 2147483647 :=
      mul_le_mul (by omega) (by omega) (by omega) (by norm_num)
    refine ⟨hex, hb.1, ?_, by norm_num⟩
    norm_num
    omega
  · rw [main_of_valid M P fuel a0 samples num_threads rest hpos]
    rcases mainBody_cases M P hw fuel samples num_threads hs hn (by omega) hfs hfn with
      ⟨k, hk, hne, hrun⟩ | ⟨_, k, hk, hall, hstop, hrun⟩
    · refine ⟨_, hrun, ?_⟩
      intro T hT
      exfalso
      simp only [List.mem_append, List.mem_cons, List.mem_singleton, List.not_mem_nil,
        or_false] at hT
      rcases hT with hT | hT | hT
      · have := createTrace_isThreadEvent samples (toUInt P.time) k _ hT
        simp [Event.isThreadEvent] at this
      · cases hT
      · cases hT
    · refine ⟨_, hrun, ?_⟩
      intro T hT
      have hpre : ∀ e ∈ createTrace samples (toUInt P.time) num_threads.toNat
          ++ joinTrace P k ++ joinStop P num_threads k, e.isThreadEvent = true := by
        intro e he
        simp only [List.mem_append] at he
        rcases he with (he | he) | he
        · exact createTrace_isThreadEvent _ _ _ e he
        · exact joinTrace_isThreadEvent _ _ e he
        · exact joinStop_isThreadEvent _ _ _ e he
      have hTe := hits_mem_unique _ _ _ T hpre hT
      exact ⟨k, hk, hTe, by
        rw [hTe]
        exact reduce_partialResults_exact M P samples (toUInt P.time) hs k
          (by unfold INT_MAX; omega)⟩

/-- Instance of C10: three workers of five samples on the rough platform. -/
theorem accumulators_do_not_overflow_witness :
    (∀ i : Int,
      calculate_hits lcgMachine 5 (thread_args 5 (toUInt roughPlatform.time) i)
        = some (hitsAfter lcgMachine (5 : Int).toNat
            (thread_args 5 (toUInt roughPlatform.time) i).seed : Nat) ∧
      ((hitsAfter lcgMachine (5 : Int).toNat
          (thread_args 5 (toUInt roughPlatform.time) i).seed : Nat) : Int) ≤ max 5 0 ∧
      max (5 : Int) 0 ≤ 2 ^ 31 - 1) ∧
    (∀ k : Nat, (k : Int) ≤ 3 →
      reduce (partialResults lcgMachine roughPlatform 5 (toUInt roughPlatform.time) k)
        = exactSum (partialResults lcgMachine roughPlatform 5 (toUInt roughPlatform.time) k) ∧
      0 ≤ exactSum (partialResults lcgMachine roughPlatform 5 (toUInt roughPlatform.time) k) ∧
      exactSum (partialResults lcgMachine roughPlatform 5 (toUInt roughPlatform.time) k)
        ≤ (2 ^ 31 - 1) ^ 2 ∧
      ((2 : Int) ^ 31 - 1) ^ 2 < 2 ^ 63) ∧
    (∃ r : Outcome, main lcgMachine roughPlatform 5 [0, 5, 3] = some r ∧
      ∀ T : Int, Event.hits T ∈ r.out → ∃ k : Nat, (k : Int) ≤ 3 ∧
        T = reduce (partialResults lcgMachine roughPlatform 5 (toUInt roughPlatform.time) k) ∧
        T = exactSum
          (partialResults lcgMachine roughPlatform 5 (toUInt roughPlatform.time) k)) :=
  accumulators_do_not_overflow lcgMachine roughPlatform (by decide) 5 0 5 3 []
    (by decide) (by decide) (by decide) (by decide) (by decide)

/-! ## The divisor of the estimate -/

/-- C6, the claim as stated fails: with `samples = 0` and one worker, `main`
returns `0` after printing both result lines, the estimate being computed by a
division whose divisor `samples*num_threads` is `0`; no check precedes it. -/
theorem zero_samples_divides_by_zero :
    main lcgMachine calmPlatform 1 [0, 0, 1]
        = some ⟨0, [Event.create 0 (thread_args 0 (toUInt calmPlatform.time) 0),
            Event.join 0, Event.hits 0, Event.pi 0 0]⟩ ∧
      DividesByZero ⟨0, [Event.create 0 (thread_args 0 (toUInt calmPlatform.time) 0),
        Event.join 0, Event.hits 0, Event.pi 0 0]⟩ :=
  ⟨by decide, ⟨0, by simp⟩⟩

/-- C6 as amended: for `num_threads > 0` and `samples = 0`, when every thread is
created, the run prints `total_hits = 0` whatever the joins do, and computes
the estimate without validating the divisor: the division is performed with
divisor `samples*num_threads = 0`, both result lines are printed and `main`
returns `0`. -/
theorem zero_samples_run {D : Type} (M : Machine D) (P : Platform)
    (hw : 32 ≤ M.longBits) (fuel : Nat) (a0 num_threads : Int) (rest : List Int)
    (hn : IsInt num_threads) (hpos : 0 < num_threads) (hfn : num_threads.toNat ≤ fuel)
    (hc : ∀ j : Nat, (j : Int) < num_threads → P.pthread_create (j : Int) = 0) :
    ∃ (r : Outcome) (pre : List Event),
      main M P fuel (a0 :: 0 :: num_threads :: rest) = some r ∧ r.status = 0 ∧
      (∀ e ∈ pre, e.isThreadEvent = true) ∧
      r.out = pre ++ [Event.hits 0, Event.pi 0 0] ∧ DividesByZero r := by
  rw [main_of_valid M P fuel a0 0 num_threads rest hpos]
  rcases mainBody_cases M P hw fuel 0 num_threads (by decide) hn (by omega) (by simp) hfn with
    ⟨k, hk, hne, _⟩ | ⟨_, k, hk, hall, hstop, hrun⟩
  · exact absurd (hc k hk) hne
  · have hex := reduce_partialResults_exact M P 0 (toUInt P.time) (by decide) k
      (by have := hn.2; omega)
    have hb := exactSum_partialResults_bounds M P 0 (toUInt P.time) k
    have hz : exactSum (partialResults M P 0 (toUInt P.time) k) = 0 := by
      have h2 := hb.2
      simp only [Int.toNat_zero, Nat.cast_zero, mul_zero] at h2
      exact le_antisymm h2 hb.1
    have hd : piDivisor 0 num_threads = 0 := by
      simp [piDivisor, wrapInt, wrapSigned]
    rw [hex, hz, hd] at hrun
    refine ⟨_, createTrace 0 (toUInt P.time) num_threads.toNat ++ joinTrace P k
      ++ joinStop P num_threads k, hrun, rfl, ?_, rfl, ⟨0, by simp⟩⟩
    intro e he
    simp only [List.mem_append] at he
    rcases he with (he | he) | he
    · exact createTrace_isThreadEvent _ _ _ e he
    · exact joinTrace_isThreadEvent _ _ e he
    · exact joinStop_isThreadEvent _ _ _ e he

/-- Instance of the amended C6: three workers without samples on the rough
platform. -/
theorem zero_samples_run_witness :
    ∃ (r : Outcome) (pre : List Event),
      main lcgMachine roughPlatform 3 [0, 0, 3] = some r ∧ r.status = 0 ∧
      (∀ e ∈ pre, e.isThreadEvent = true) ∧
      r.out = pre ++ [Event.hits 0, Event.pi 0 0] ∧ DividesByZero r :=
  zero_samples_run lcgMachine roughPlatform (by decide) 3 0 3 [] (by decide) (by decide)
    (by decide) (fun _ _ => rfl)

/-- C5, the code at `samples = 2^30`, `num_threads = 2`: both threads are handed
`2^30` samples, `2^31` in all, a value that no `int` holds; the run succeeds
and the divisor `samples*num_threads` of the printed estimate is `-2^31`. The
same divisor results from `2^26` samples with the default `N_THREADS`. -/
theorem divisor_overflows_for_two_threads :
    (∃ (r : Outcome) (pre : List Event) (T : Int),
      main lcgMachine calmPlatform 1073741824 [0, 1073741824, 2] = some r ∧
      r.status = 0 ∧
      r.out = pre ++ [Event.hits T, Event.pi T (-2147483648)]) ∧
    (thread_args 1073741824 (toUInt calmPlatform.time) 0).samples = 1073741824 ∧
    (thread_args 1073741824 (toUInt calmPlatform.time) 1).samples = 1073741824 ∧
    assignedSamples 1073741824 (toUInt calmPlatform.time) 2 = 2147483648 ∧
    ¬ IsInt 2147483648 ∧
    piDivisor 1073741824 2 = -2147483648 ∧
    piDivisor 67108864 N_THREADS = -2147483648 := by
  refine ⟨?_, rfl, rfl, by decide, by decide, by decide, by decide⟩
  have hpos : (0 : Int) < 2 := by decide
  rw [main_of_valid lcgMachine calmPlatform 1073741824 0 1073741824 2 [] hpos]
  rcases mainBody_cases lcgMachine calmPlatform (by decide) 1073741824 1073741824 2
    (by decide) (by decide) (by decide) (by decide) (by decide) with
    ⟨k, _, hne, _⟩ | ⟨_, k, _, _, _, hrun⟩
  · exact absurd rfl hne
  · have hd : piDivisor 1073741824 2 = -2147483648 := by decide
    rw [hd] at hrun
    exact ⟨_, _, _, hrun, rfl, rfl⟩

end MonteCarloPi
